import Mathlib

/-!
Shallow embedding of `src/list.c` from marcoguerri/libads: a doubly-linked
list with copy-in payload storage.  Nodes live in an explicit heap addressed
by natural numbers; `next`/`prev` pointers are `Option Nat` (`none` = NULL).
Loops of the C code are modelled with an explicit fuel argument; every
theorem supplies enough fuel for the chain at hand.
-/

namespace Libads

/-- Payload holder: `list_data_t` from list.h, as used by list.c
(`data->size`, `data->payload`).  The payload buffer is a byte list. -/
structure list_data_t where
  size : Nat
  payload : List Nat
deriving DecidableEq, Repr

/-- List node: `list_node_t` from list.h, as used by list.c
(`node->data`, `node->next`, `node->prev`).  The data indirection is
collapsed into the node record; pointers are heap addresses. -/
structure list_node_t where
  data : list_data_t
  next : Option Nat
  prev : Option Nat
deriving DecidableEq, Repr

/-- Heap of allocated nodes: address to node contents, `none` = unallocated. -/
def Heap : Type := Nat → Option list_node_t

/-- Pointwise heap update. -/
def Heap.update (h : Heap) (a : Nat) (v : Option list_node_t) : Heap :=
  fun x => if x = a then v else h x

/-- The heap write `a->next = v` (no-op on an unallocated address, which the
C code never does on the paths we verify). -/
def Heap.setNext (h : Heap) (a : Nat) (v : Option Nat) : Heap :=
  match h a with
  | none => h
  | some nd => h.update a (some { nd with next := v })

/-- The heap write `a->prev = v`. -/
def Heap.setPrev (h : Heap) (a : Nat) (v : Option Nat) : Heap :=
  match h a with
  | none => h
  | some nd => h.update a (some { nd with prev := v })

/-- The effect of `free_node` on the heap: the node's storage (payload,
data record and node record, collapsed here) becomes unallocated. -/
def Heap.free (h : Heap) (a : Nat) : Heap := h.update a none

/-- The test `memcmp(a, b, size) == 0`: the first `size` bytes agree.
Faithful whenever both buffers hold at least `size` bytes, which is the
case on every call the C code makes on valid inputs. -/
def memcmpEq (a b : List Nat) (size : Nat) : Bool :=
  a.take size == b.take size

/-- Loop of `list_len`: counts nodes reachable through `next`, starting at
(and including) the argument.  `fuel` bounds the iterations; a dangling
pointer (unallocated address) stops the count, mirroring the fact that the
C loop only ever runs on valid chains. -/
def list_len_aux (h : Heap) : Nat → Option Nat → Nat
  | _, none => 0
  | 0, some _ => 0
  | fuel + 1, some a =>
    match h a with
    | none => 0
    | some nd => list_len_aux h fuel nd.next + 1

/-- The function `list_init(payload, size)`: rejects a NULL payload or
`size <= 0`, otherwise builds a single node with both links NULL holding a
copy of the first `size` bytes.  The result is the node contents (the C
function returns a pointer to a fresh allocation disjoint from any list). -/
def list_init (payload : Option (List Nat)) (size : Nat) : Option list_node_t :=
  match payload with
  | none => none
  | some p =>
    if size = 0 then none
    else some ⟨⟨size, p.take size⟩, none, none⟩

/-- Walk `pos` hops along `next` (the loop of `list_get`). -/
def walkNext (h : Heap) : Nat → Option Nat → Option Nat
  | 0, cur => cur
  | _ + 1, none => none
  | n + 1, some a =>
    match h a with
    | none => none
    | some nd => walkNext h n nd.next

/-- The function `list_get(ptr_root, pos)`: NULL when the root is NULL or
`pos >= list_len(ptr_root)`, otherwise the payload of the node reached by
`pos` forward hops. -/
def list_get (h : Heap) (fuel : Nat) (root : Option Nat) (pos : Nat) :
    Option (List Nat) :=
  if root = none ∨ pos ≥ list_len_aux h fuel root then none
  else
    match walkNext h pos root with
    | none => none
    | some a =>
      match h a with
      | none => none
      | some nd => some nd.data.payload

/-- Walk of the `list_insert` positioning loop: `pos` hops tracking
`(ptr_prev, ptr_pos)`.  The `none` fallthroughs are unreachable under the
`pos <= list_len` guard (the C code asserts). -/
def walkPrev (h : Heap) : Nat → Option Nat → Option Nat →
    Option Nat × Option Nat
  | 0, prev, cur => (prev, cur)
  | _ + 1, prev, none => (prev, none)
  | n + 1, _, some a =>
    match h a with
    | none => (some a, none)
    | some nd => walkPrev h n (some a) nd.next

/-- The function `list_insert(ptr_root, payload, size, pos)`.  Returns the
updated heap and the new root pointer (`none` = NULL result; on rejection
the heap is returned untouched).  `newAddr` is the address of the freshly
malloc'd node.  The middle-insertion branch reproduces the source's
statement order exactly: `ptr_node->next = ptr_pos; ptr_node->prev =
ptr_pos->prev; ptr_pos->prev = ptr_node; ptr_pos->prev->next = ptr_node;`
— after the third statement `ptr_pos->prev` is the new node itself, so the
fourth statement sets the new node's `next` to its own address and the old
predecessor's `next` is never rewritten. -/
def list_insert (h : Heap) (fuel : Nat) (root : Option Nat)
    (payload : Option (List Nat)) (size : Nat) (pos : Nat) (newAddr : Nat) :
    Heap × Option Nat :=
  if root = none ∨ payload = none ∨ pos > list_len_aux h fuel root then
    (h, none)
  else
    let pay := (payload.getD []).take size
    match walkPrev h pos none root with
    | (pp, none) =>
      -- appending at the end
      match pp with
      | none => (h, none)   -- unreachable: the C code asserts ptr_prev != NULL
      | some pa =>
        let node : list_node_t := ⟨⟨size, pay⟩, none, some pa⟩
        ((h.update newAddr (some node)).setNext pa (some newAddr), root)
    | (_, some ca) =>
      match h ca with
      | none => (h, none)   -- unreachable: dangling pointer dereference
      | some cnd =>
        if cnd.prev = none then
          -- beginning of the list
          let node : list_node_t := ⟨⟨size, pay⟩, root, none⟩
          ((h.update newAddr (some node)).setPrev ca (some newAddr),
           some newAddr)
        else
          -- adding in the middle (with the source's self-link slip)
          let node : list_node_t := ⟨⟨size, pay⟩, some newAddr, cnd.prev⟩
          ((h.update newAddr (some node)).setPrev ca (some newAddr), root)

/-- Loop of `list_del`: scan from the current pointer; on a `memcmp` match
re-link the four structural cases and free the node.  `none` models the
`assert(0)` abort reached when the scan falls off the end of the list
(fuel exhaustion also yields `none`; all theorems supply enough fuel). -/
def list_del_loop (h : Heap) (root : Option Nat) (payload : List Nat)
    (size : Nat) : Nat → Option Nat → Option (Heap × Option Nat)
  | _, none => none
  | 0, some _ => none
  | fuel + 1, some a =>
    match h a with
    | none => none
    | some nd =>
      if memcmpEq nd.data.payload payload size then
        match nd.prev with
        | none =>
          match nd.next with
          | some na => some ((h.setPrev na none).free a, some na)
          | none => some (h.free a, none)
        | some pa =>
          match nd.next with
          | some na =>
            some ((((h.setPrev na nd.prev).setNext pa nd.next)).free a, root)
          | none => some ((h.setNext pa none).free a, root)
      else list_del_loop h root payload size fuel nd.next

/-- The function `list_del(ptr_root, payload, size)`. -/
def list_del (h : Heap) (fuel : Nat) (root : Option Nat)
    (payload : List Nat) (size : Nat) : Option (Heap × Option Nat) :=
  list_del_loop h root payload size fuel root

/-- The function `list_search(ptr_root, payload, size)`: first node whose
payload `memcmp`-matches, NULL when none does. -/
def list_search (h : Heap) : Nat → Option Nat → List Nat → Nat → Option Nat
  | 0, _, _, _ => none
  | _ + 1, none, _, _ => none
  | fuel + 1, some a, payload, size =>
    match h a with
    | none => none
    | some nd =>
      if memcmpEq nd.data.payload payload size then some a
      else list_search h fuel nd.next payload size

/-! Model of `list_print`.  The output buffer is a byte list; the
caller-supplied callback is modelled as a function from the payload to the
bytes it writes (or `none` for the `-1` failure sentinel), and is assumed
to write exactly those bytes at the cursor.  Bytes exposed by `realloc`
growth are unspecified in C; they are supplied by a `junk` function indexed
by absolute buffer position. -/

def LIST_PRINT_BUFF_SIZE : Nat := 16
def REALLOC_THRESHOLD : Nat := 8

/-- Overwrite `w` into `l` starting at index `i` (the effect of the
callback writing at `buff + buff_ptr`, or of `memset`). -/
def writeAt (l : List Nat) (i : Nat) (w : List Nat) : List Nat :=
  l.take i ++ w ++ l.drop (i + w.length)

/-- State of the `list_print` loop: the buffer, its capacity
(`curr_buff_size`) and the write cursor (`buff_ptr`). -/
structure PrintState where
  buff : List Nat
  cap : Nat
  cursor : Nat
deriving DecidableEq, Repr

/-- One iteration body of `list_print` after a successful callback that
wrote `w`: advance the cursor, and when headroom drops below the threshold
double the buffer (realloc exposes `cap` junk bytes, then
`memset(buff + buff_ptr, 0, curr_buff_size)` zeroes `cap` bytes at the
cursor, then the capacity doubles). -/
def print_step (junk : Nat → Nat) (st : PrintState) (w : List Nat) :
    PrintState :=
  let buff1 := writeAt st.buff st.cursor w
  let c := st.cursor + w.length
  if c > st.cap - REALLOC_THRESHOLD then
    let buff2 := buff1 ++ (List.range st.cap).map (fun i => junk (st.cap + i))
    let buff3 := writeAt buff2 c (List.replicate st.cap 0)
    ⟨buff3, st.cap * 2, c⟩
  else
    ⟨buff1, st.cap, c⟩

/-- Loop of `list_print`: one callback invocation per node in forward
order; `none` models the NULL returns (callback failure; fuel exhaustion
never happens on the valid chains the theorems quantify over). -/
def list_print_loop (h : Heap) (cb : List Nat → Option (List Nat))
    (junk : Nat → Nat) : Nat → Option Nat → PrintState → Option PrintState
  | _, none, st => some st
  | 0, some _, _ => none
  | fuel + 1, some a, st =>
    match h a with
    | none => none
    | some nd =>
      match cb nd.data.payload with
      | none => none
      | some w => list_print_loop h cb junk fuel nd.next (print_step junk st w)

/-- The function `list_print(root, print_payload)`: a NULL callback yields
NULL; otherwise run the loop on a zeroed buffer of the initial capacity. -/
def list_print (h : Heap) (fuel : Nat) (root : Option Nat)
    (cb : Option (List Nat → Option (List Nat))) (junk : Nat → Nat) :
    Option PrintState :=
  match cb with
  | none => none
  | some f =>
    list_print_loop h f junk fuel root
      ⟨List.replicate LIST_PRINT_BUFF_SIZE 0, LIST_PRINT_BUFF_SIZE, 0⟩

/-! Abstraction layer: a list of `(address, data)` cells describes a
doubly-linked chain laid out in a heap.  `linkNodes prev cells` computes
the node record each cell must hold (forward link to the next cell,
back link to the preceding cell, `prev` for the head). -/

/-- Address of the first cell (NULL for the empty chain). -/
def headAddr (cells : List (Nat × list_data_t)) : Option Nat :=
  cells.head?.map Prod.fst

/-- Node records of a chain whose head's `prev` pointer is `prev`. -/
def linkNodes : Option Nat → List (Nat × list_data_t) →
    List (Nat × list_node_t)
  | _, [] => []
  | prev, (a, d) :: rest =>
    (a, ⟨d, headAddr rest, prev⟩) :: linkNodes (some a) rest

/-- First association for an address (the lookup a well-formed heap
performs). -/
def findA : List (Nat × list_node_t) → Nat → Option list_node_t
  | [], _ => none
  | (a, nd) :: t, x => if x = a then some nd else findA t x

/-- The heap holding exactly the chain `cells` (head's `prev` = NULL) and
nothing else. -/
def heapOf (cells : List (Nat × list_data_t)) : Heap :=
  fun x => findA (linkNodes none cells) x

/-- Agreement predicate: heap `h` holds the chain `cells` (whose head's
`prev` pointer is `prev`) at its addresses.  `h` may hold other nodes
elsewhere. -/
def Chain (h : Heap) (prev : Option Nat)
    (cells : List (Nat × list_data_t)) : Prop :=
  ∀ pr ∈ linkNodes prev cells, h pr.1 = some pr.2

instance (h : Heap) (prev : Option Nat) (cells : List (Nat × list_data_t)) :
    Decidable (Chain h prev cells) := by
  unfold Chain; infer_instance

/-- First index of `cells` whose payload `memcmp`-matches `payload` over
`size` bytes (the node `list_del`/`list_search` stop at). -/
def firstMatchIdx (payload : List Nat) (size : Nat) :
    List (Nat × list_data_t) → Option Nat
  | [] => none
  | c :: rest =>
    if memcmpEq c.2.payload payload size then some 0
    else (firstMatchIdx payload size rest).map (· + 1)

/-! Basic facts about the abstraction layer. -/

theorem map_fst_linkNodes (prev : Option Nat)
    (cells : List (Nat × list_data_t)) :
    (linkNodes prev cells).map Prod.fst = cells.map Prod.fst := by
  induction cells generalizing prev with
  | nil => rfl
  | cons c rest ih => obtain ⟨a, d⟩ := c; simp [linkNodes, ih]

theorem chain_nil {h : Heap} {prev : Option Nat} : Chain h prev [] := by
  simp [Chain, linkNodes]

theorem chain_cons {h : Heap} {prev : Option Nat} {a : Nat}
    {d : list_data_t} {rest : List (Nat × list_data_t)} :
    Chain h prev ((a, d) :: rest) ↔
      h a = some ⟨d, headAddr rest, prev⟩ ∧ Chain h (some a) rest := by
  simp [Chain, linkNodes]

theorem findA_not_mem {entries : List (Nat × list_node_t)} {x : Nat}
    (hx : x ∉ entries.map Prod.fst) : findA entries x = none := by
  induction entries with
  | nil => rfl
  | cons e t ih =>
    obtain ⟨a, nd⟩ := e
    simp only [List.map_cons, List.mem_cons] at hx
    push_neg at hx
    simp [findA, hx.1, ih hx.2]

theorem heapOf_not_mem {cells : List (Nat × list_data_t)} {x : Nat}
    (hx : x ∉ cells.map Prod.fst) : heapOf cells x = none := by
  unfold heapOf
  exact findA_not_mem (by rwa [map_fst_linkNodes])

theorem findA_linkNodes_self {cells : List (Nat × list_data_t)} :
    ∀ {prev : Option Nat}, (cells.map Prod.fst).Nodup →
    ∀ pr ∈ linkNodes prev cells,
      findA (linkNodes prev cells) pr.1 = some pr.2 := by
  induction cells with
  | nil => intro prev _ pr hpr; simp [linkNodes] at hpr
  | cons c rest ih =>
    intro prev hnd pr hpr
    obtain ⟨a, d⟩ := c
    simp only [List.map_cons, List.nodup_cons] at hnd
    simp only [linkNodes, List.mem_cons] at hpr
    rcases hpr with hpr | hpr
    · subst hpr; simp [findA]
    · have hmem : pr.1 ∈ rest.map Prod.fst := by
        have : pr.1 ∈ (linkNodes (some a) rest).map Prod.fst :=
          List.mem_map_of_mem Prod.fst hpr
        rwa [map_fst_linkNodes] at this
      have hne : pr.1 ≠ a := fun he => hnd.1 (he ▸ hmem)
      simp [findA, hne, ih hnd.2 pr hpr]

theorem chain_heapOf {cells : List (Nat × list_data_t)}
    (hnd : (cells.map Prod.fst).Nodup) : Chain (heapOf cells) none cells :=
  fun pr hpr => findA_linkNodes_self hnd pr hpr

/-! Traversal lemmas: the loops of the C code, run on a heap that agrees
with a chain, compute list functions of the chain. -/

theorem list_len_aux_chain {cells : List (Nat × list_data_t)} :
    ∀ {h : Heap} {prev : Option Nat} {fuel : Nat}, Chain h prev cells →
    cells.length ≤ fuel →
    list_len_aux h fuel (headAddr cells) = cells.length := by
  induction cells with
  | nil =>
    intro h prev fuel _ _
    cases fuel <;> simp [headAddr, list_len_aux]
  | cons c rest ih =>
    intro h prev fuel hch hlen
    obtain ⟨a, d⟩ := c
    rw [chain_cons] at hch
    cases fuel with
    | zero => simp at hlen
    | succ f =>
      have : headAddr ((a, d) :: rest) = some a := by simp [headAddr]
      rw [this]
      simp only [list_len_aux, hch.1]
      rw [ih hch.2 (by simpa using hlen)]
      simp

theorem walkNext_chain {cells : List (Nat × list_data_t)} :
    ∀ {h : Heap} {prev : Option Nat} {i : Nat}, Chain h prev cells →
    walkNext h i (headAddr cells) = cells[i]?.map Prod.fst := by
  induction cells with
  | nil =>
    intro h prev i _
    cases i <;> simp [headAddr, walkNext]
  | cons c rest ih =>
    intro h prev i hch
    obtain ⟨a, d⟩ := c
    rw [chain_cons] at hch
    have hhd : headAddr ((a, d) :: rest) = some a := by simp [headAddr]
    rw [hhd]
    cases i with
    | zero => simp [walkNext]
    | succ n =>
      simp only [walkNext, hch.1]
      rw [ih hch.2]
      simp

theorem headAddr_eq_getElem (cells : List (Nat × list_data_t)) :
    headAddr cells = cells[0]?.map Prod.fst := by
  cases cells <;> simp [headAddr]

theorem eraseIdx_map {α β : Type _} (f : α → β) (l : List α) :
    ∀ k, (l.map f).eraseIdx k = (l.eraseIdx k).map f := by
  induction l with
  | nil => intro k; simp
  | cons x t ih => intro k; cases k <;> simp [List.eraseIdx, ih]

theorem findA_linkNodes_getElem {cells : List (Nat × list_data_t)} :
    ∀ {prev : Option Nat} {i : Nat} {a : Nat} {d : list_data_t},
    (cells.map Prod.fst).Nodup → cells[i]? = some (a, d) →
    findA (linkNodes prev cells) a =
      some ⟨d, cells[i + 1]?.map Prod.fst,
            if i = 0 then prev else cells[i - 1]?.map Prod.fst⟩ := by
  induction cells with
  | nil => intro prev i a d _ hi; simp at hi
  | cons c rest ih =>
    intro prev i a d hnd hi
    obtain ⟨b, e⟩ := c
    simp only [List.map_cons, List.nodup_cons] at hnd
    cases i with
    | zero =>
      simp only [List.getElem?_cons_zero, Option.some.injEq, Prod.mk.injEq] at hi
      obtain ⟨rfl, rfl⟩ := hi
      simp [linkNodes, findA, headAddr_eq_getElem]
    | succ j =>
      simp only [List.getElem?_cons_succ] at hi
      have hmem : a ∈ rest.map Prod.fst := by
        have : (a, d) ∈ rest := by
          have h1 := List.getElem?_eq_some_iff.mp hi
          obtain ⟨hlt, hget⟩ := h1
          exact hget ▸ List.getElem_mem hlt
        exact List.mem_map_of_mem Prod.fst this
      have hne : a ≠ b := fun he => hnd.1 (he ▸ hmem)
      simp only [linkNodes, findA, if_neg hne]
      rw [ih hnd.2 hi]
      cases j with
      | zero => simp
      | succ j' => simp

theorem heapOf_getElem {cells : List (Nat × list_data_t)} {i : Nat}
    {a : Nat} {d : list_data_t} (hnd : (cells.map Prod.fst).Nodup)
    (hi : cells[i]? = some (a, d)) :
    heapOf cells a =
      some ⟨d, cells[i + 1]?.map Prod.fst,
            if i = 0 then none else cells[i - 1]?.map Prod.fst⟩ :=
  findA_linkNodes_getElem hnd hi

/-! Behaviour of `list_del`. -/

/-- Net heap effect of the four re-linking cases of `list_del` on a matched
node at address `vk` whose `prev` pointer is `pk` and `next` pointer is
`nk`: exactly the writes the source performs, followed by `free_node`. -/
def delUpdates (h : Heap) (pk nk : Option Nat) (vk : Nat) : Heap :=
  match pk, nk with
  | none, none => h.free vk
  | none, some b => (h.setPrev b none).free vk
  | some pa, none => (h.setNext pa none).free vk
  | some pa, some b => ((h.setPrev b (some pa)).setNext pa (some b)).free vk

theorem delUpdates_apply (h : Heap) (pk nk : Option Nat) (vk x : Nat)
    (hpb : ∀ pa b, pk = some pa → nk = some b → pa ≠ b) :
    delUpdates h pk nk vk x =
      if x = vk then none
      else if pk = some x then (h x).map (fun nd => { nd with next := nk })
      else if nk = some x then (h x).map (fun nd => { nd with prev := pk })
      else h x := by
  rcases pk with _ | pa <;> rcases nk with _ | b
  · simp only [delUpdates, Heap.free, Heap.update]
    split_ifs with h1 h2 h3 <;> simp_all
  · simp only [delUpdates, Heap.free, Heap.update, Heap.setPrev]
    rcases hhb : h b with _ | nd
    · split_ifs with h1 h2 h3 <;> simp_all
    · simp only [Heap.update]
      split_ifs with h1 h2 h3 h4 <;> simp_all
  · simp only [delUpdates, Heap.free, Heap.update, Heap.setNext]
    rcases hha : h pa with _ | nd
    · split_ifs with h1 h2 h3 <;> simp_all
    · simp only [Heap.update]
      split_ifs with h1 h2 h3 h4 <;> simp_all
  · have hab : pa ≠ b := hpb pa b rfl rfl
    simp only [delUpdates, Heap.free, Heap.update, Heap.setPrev]
    rcases hhb : h b with _ | bnd
    · simp only [Heap.setNext]
      rcases hha : h pa with _ | pnd
      · split_ifs with h1 h2 h3 <;> simp_all
      · simp only [Heap.update]
        split_ifs with h1 h2 h3 h4 <;> simp_all
    · simp only [Heap.setNext, Heap.update, if_neg hab]
      rcases hha : h pa with _ | pnd
      · split_ifs with h1 h2 h3 h4 <;> simp_all [Heap.update] <;>
          (intro hxb; exact absurd hxb.symm (by assumption))
      · simp only [Heap.update]
        split_ifs with h1 h2 h3 h4 h5 <;> simp_all [Heap.update] <;>
          (intro hxb; exact absurd hxb.symm (by assumption))

theorem firstMatchIdx_lt_length {payload : List Nat} {size : Nat} :
    ∀ {cells : List (Nat × list_data_t)} {k : Nat},
    firstMatchIdx payload size cells = some k → k < cells.length := by
  intro cells
  induction cells with
  | nil => intro k hk; simp [firstMatchIdx] at hk
  | cons c rest ih =>
    intro k hk
    simp only [firstMatchIdx] at hk
    split at hk
    · simp only [Option.some.injEq] at hk
      subst hk
      simp
    · simp only [Option.map_eq_some'] at hk
      obtain ⟨k', hk', rfl⟩ := hk
      have := ih hk'
      simp only [List.length_cons]
      omega

theorem list_del_loop_found {cells : List (Nat × list_data_t)} :
    ∀ {h : Heap} {prev root : Option Nat} {payload : List Nat}
      {size fuel k vk : Nat} {dk : list_data_t},
    Chain h prev cells → cells.length ≤ fuel →
    firstMatchIdx payload size cells = some k →
    cells[k]? = some (vk, dk) →
    list_del_loop h root payload size fuel (headAddr cells) =
      some (delUpdates h
              (if k = 0 then prev else cells[k - 1]?.map Prod.fst)
              (cells[k + 1]?.map Prod.fst) vk,
            if k = 0 ∧ prev = none then cells[k + 1]?.map Prod.fst
            else root) := by
  induction cells with
  | nil => intro h prev root payload size fuel k vk dk _ _ hfm _
           simp [firstMatchIdx] at hfm
  | cons c rest ih =>
    intro h prev root payload size fuel k vk dk hch hfuel hfm hget
    obtain ⟨a, d⟩ := c
    rw [chain_cons] at hch
    cases fuel with
    | zero => simp at hfuel
    | succ f =>
      have hhd : headAddr ((a, d) :: rest) = some a := by simp [headAddr]
      rw [hhd]
      simp only [list_del_loop, hch.1]
      simp only [firstMatchIdx] at hfm
      by_cases hm : memcmpEq d.payload payload size
      · rw [if_pos hm] at hfm ⊢
        simp only [Option.some.injEq] at hfm
        subst hfm
        simp only [List.getElem?_cons_zero, Option.some.injEq,
          Prod.mk.injEq] at hget
        obtain ⟨rfl, rfl⟩ := hget
        have h0 : rest[0]?.map Prod.fst = headAddr rest :=
          (headAddr_eq_getElem rest).symm
        rcases hp : prev with _ | pa <;> rcases hn : headAddr rest with _ | na <;>
          simp [delUpdates, h0, hn]
      · rw [if_neg hm] at hfm ⊢
        simp only [Option.map_eq_some'] at hfm
        obtain ⟨k', hk', rfl⟩ := hfm
        have hget' : rest[k']? = some (vk, dk) := by simpa using hget
        have := @ih h (some a) root payload size f k' vk dk
          hch.2 (by simpa using hfuel) hk' hget'
        rw [this]
        have hroot : ¬(k' + 1 = 0 ∧ prev = none) := by simp
        rw [if_neg hroot]
        have hr2 : (k' = 0 ∧ some a = none) = False := by simp
        simp only [hr2, if_false]
        cases k' with
        | zero => simp
        | succ j => simp


theorem list_del_loop_miss {cells : List (Nat × list_data_t)} :
    ∀ {h : Heap} {prev root : Option Nat} {payload : List Nat}
      {size fuel : Nat},
    Chain h prev cells → cells.length ≤ fuel →
    firstMatchIdx payload size cells = none →
    list_del_loop h root payload size fuel (headAddr cells) = none := by
  induction cells with
  | nil =>
    intro h prev root payload size fuel _ _ _
    cases fuel <;> simp [headAddr, list_del_loop]
  | cons c rest ih =>
    intro h prev root payload size fuel hch hfuel hfm
    obtain ⟨a, d⟩ := c
    rw [chain_cons] at hch
    cases fuel with
    | zero => simp at hfuel
    | succ f =>
      have hhd : headAddr ((a, d) :: rest) = some a := by simp [headAddr]
      rw [hhd]
      simp only [list_del_loop, hch.1]
      simp only [firstMatchIdx] at hfm
      by_cases hm : memcmpEq d.payload payload size
      · rw [if_pos hm] at hfm; simp at hfm
      · rw [if_neg hm] at hfm ⊢
        simp only [Option.map_eq_none'] at hfm
        exact ih hch.2 (by simpa using hfuel) hfm

theorem nodup_getElem_not_mem_eraseIdx {α : Type _} {l : List α}
    (hnd : l.Nodup) {k : Nat} {v : α} (hv : l[k]? = some v) :
    v ∉ l.eraseIdx k := by
  intro hm
  obtain ⟨i, hi⟩ := List.mem_iff_getElem?.mp hm
  rw [List.getElem?_eraseIdx] at hi
  split at hi
  · have hil : i < l.length := by
      rcases List.getElem?_eq_some_iff.mp hi with ⟨hl, _⟩; exact hl
    have := List.getElem?_inj hil hnd (hi.trans hv.symm)
    omega
  · have hil : i + 1 < l.length := by
      rcases List.getElem?_eq_some_iff.mp hi with ⟨hl, _⟩; exact hl
    have := List.getElem?_inj hil hnd (hi.trans hv.symm)
    omega

theorem delUpdates_heapOf {cells : List (Nat × list_data_t)} {k vk : Nat}
    {dk : list_data_t} (hnd : (cells.map Prod.fst).Nodup)
    (hget : cells[k]? = some (vk, dk)) :
    ∀ x, delUpdates (heapOf cells)
        (if k = 0 then none else cells[k - 1]?.map Prod.fst)
        (cells[k + 1]?.map Prod.fst) vk x
      = heapOf (cells.eraseIdx k) x := by
  have hklen : k < cells.length := by
    rcases List.getElem?_eq_some_iff.mp hget with ⟨hl, _⟩; exact hl
  have hvk : (cells.map Prod.fst)[k]? = some vk := by
    rw [List.getElem?_map, hget]; rfl
  have hnd' : ((cells.eraseIdx k).map Prod.fst).Nodup := by
    rw [← eraseIdx_map]; exact hnd.eraseIdx k
  have hside : ∀ pa b,
      (if k = 0 then none else cells[k - 1]?.map Prod.fst) = some pa →
      cells[k + 1]?.map Prod.fst = some b → pa ≠ b := by
    intro pa b hpa hb heq
    by_cases hk0 : k = 0
    · rw [if_pos hk0] at hpa; simp at hpa
    · rw [if_neg hk0] at hpa
      have hpa' : (cells.map Prod.fst)[k - 1]? = some pa := by
        rw [List.getElem?_map]; exact hpa
      have hb' : (cells.map Prod.fst)[k + 1]? = some b := by
        rw [List.getElem?_map]; exact hb
      subst heq
      have hlt : k - 1 < (cells.map Prod.fst).length := by simp; omega
      have := List.getElem?_inj hlt hnd (hpa'.trans hb'.symm)
      omega
  intro x
  rw [delUpdates_apply _ _ _ _ _ hside]
  by_cases hxv : x = vk
  · rw [if_pos hxv]
    subst hxv
    have : x ∉ (cells.eraseIdx k).map Prod.fst := by
      rw [← eraseIdx_map]
      exact nodup_getElem_not_mem_eraseIdx hnd hvk
    exact (heapOf_not_mem this).symm
  · rw [if_neg hxv]
    by_cases hmem : x ∈ cells.map Prod.fst
    · -- x is the address of some cell i ≠ k
      obtain ⟨i, hi⟩ := List.mem_iff_getElem?.mp hmem
      have hilt : i < cells.length := by
        rcases List.getElem?_eq_some_iff.mp hi with ⟨hl, _⟩
        simpa using hl
      have hci : ∃ di, cells[i]? = some (x, di) := by
        have hmap : cells[i]?.map Prod.fst = some x := by
          rw [← List.getElem?_map]; exact hi
        rcases Option.map_eq_some'.mp hmap with ⟨⟨x', di⟩, hc, hfst⟩
        exact ⟨di, by rwa [show x' = x from hfst] at hc⟩
      obtain ⟨di, hci⟩ := hci
      have uniq : ∀ j, (cells.map Prod.fst)[j]? = some x → j = i := by
        intro j hj
        have hjl : j < (cells.map Prod.fst).length := by
          rcases List.getElem?_eq_some_iff.mp hj with ⟨hl, _⟩; exact hl
        exact List.getElem?_inj hjl hnd (hj.trans hi.symm)
      have hik : i ≠ k := by
        intro he
        rw [he, hget] at hci
        simp only [Option.some.injEq, Prod.mk.injEq] at hci
        exact hxv hci.1.symm
      by_cases hA : k ≠ 0 ∧ i = k - 1
      · -- x is the predecessor of the deleted node
        have hc1 : (if k = 0 then none
            else cells[k - 1]?.map Prod.fst) = some x := by
          rw [if_neg hA.1, show k - 1 = i from hA.2.symm, hci]; rfl
        rw [if_pos hc1]
        rw [heapOf_getElem hnd hci]
        have herased : (cells.eraseIdx k)[i]? = some (x, di) := by
          rw [List.getElem?_eraseIdx, if_pos (by omega)]; exact hci
        rw [heapOf_getElem hnd' herased]
        have h2 : (cells.eraseIdx k)[i + 1]? = cells[k + 1]? := by
          rw [List.getElem?_eraseIdx, if_neg (by omega)]
          congr 1; omega
        have h3 : i ≠ 0 → (cells.eraseIdx k)[i - 1]? = cells[i - 1]? := by
          intro hi0
          rw [List.getElem?_eraseIdx, if_pos (by omega)]
        rw [h2]
        simp only [Option.map_some']
        by_cases hi0 : i = 0
        · rw [if_pos hi0, if_pos hi0]
        · rw [if_neg hi0, if_neg hi0, h3 hi0]
      · by_cases hB : i = k + 1
        · -- x is the successor of the deleted node
          have hc2 : ¬ (if k = 0 then none
              else cells[k - 1]?.map Prod.fst) = some x := by
            intro hc
            by_cases hk0 : k = 0
            · rw [if_pos hk0] at hc; simp at hc
            · rw [if_neg hk0] at hc
              have : (cells.map Prod.fst)[k - 1]? = some x := by
                rw [List.getElem?_map]
                rcases Option.map_eq_some'.mp hc with ⟨c, hcc, hcf⟩
                rw [hcc]; simp [hcf]
              have := uniq _ this
              omega
          have hc3 : cells[k + 1]?.map Prod.fst = some x := by
            rw [← hB, hci]; rfl
          rw [if_neg hc2, if_pos hc3]
          rw [heapOf_getElem hnd hci]
          have herased : (cells.eraseIdx k)[k]? = some (x, di) := by
            rw [List.getElem?_eraseIdx, if_neg (by omega), ← hB]; exact hci
          rw [heapOf_getElem hnd' herased]
          have h2 : (cells.eraseIdx k)[k + 1]? = cells[k + 2]? := by
            rw [List.getElem?_eraseIdx, if_neg (by omega)]
          have h3 : k ≠ 0 → (cells.eraseIdx k)[k - 1]? = cells[k - 1]? := by
            intro hk0
            rw [List.getElem?_eraseIdx, if_pos (by omega)]
          have hB2 : i + 1 = k + 2 := by omega
          rw [h2, hB2]
          simp only [Option.map_some']
          by_cases hk0 : k = 0
          · rw [if_pos hk0, if_pos hk0]
          · rw [if_neg hk0, if_neg hk0, h3 hk0]
        · -- x is unrelated to the deleted node
          have hc4 : ¬ (if k = 0 then none
              else cells[k - 1]?.map Prod.fst) = some x := by
            intro hc
            by_cases hk0 : k = 0
            · rw [if_pos hk0] at hc; simp at hc
            · rw [if_neg hk0] at hc
              have : (cells.map Prod.fst)[k - 1]? = some x := by
                rw [List.getElem?_map]
                rcases Option.map_eq_some'.mp hc with ⟨c, hcc, hcf⟩
                rw [hcc]; simp [hcf]
              have := uniq _ this
              exact hA ⟨hk0, this.symm⟩
          have hc5 : ¬ cells[k + 1]?.map Prod.fst = some x := by
            intro hc
            have : (cells.map Prod.fst)[k + 1]? = some x := by
              rw [List.getElem?_map]
              rcases Option.map_eq_some'.mp hc with ⟨c, hcc, hcf⟩
              rw [hcc]; simp [hcf]
            exact hB (uniq _ this).symm
          rw [if_neg hc4, if_neg hc5]
          rw [heapOf_getElem hnd hci]
          rcases Nat.lt_or_ge i k with hik2 | hik2
          · -- i < k, in fact i + 1 < k
            have hik3 : i + 1 < k := by
              rcases Nat.lt_or_ge (i + 1) k with h | h
              · exact h
              · exfalso; exact hA ⟨by omega, by omega⟩
            have herased : (cells.eraseIdx k)[i]? = some (x, di) := by
              rw [List.getElem?_eraseIdx, if_pos (by omega)]; exact hci
            rw [heapOf_getElem hnd' herased]
            have h2 : (cells.eraseIdx k)[i + 1]? = cells[i + 1]? := by
              rw [List.getElem?_eraseIdx, if_pos (by omega)]
            have h3 : i ≠ 0 → (cells.eraseIdx k)[i - 1]? = cells[i - 1]? := by
              intro hi0
              rw [List.getElem?_eraseIdx, if_pos (by omega)]
            rw [h2]
            by_cases hi0 : i = 0
            · simp [hi0]
            · rw [if_neg hi0, if_neg hi0, h3 hi0]
          · -- i > k + 1, the cell sits at index i - 1 after the erase
            have hik3 : k + 1 < i := by omega
            have herased : (cells.eraseIdx k)[i - 1]? = some (x, di) := by
              rw [List.getElem?_eraseIdx, if_neg (by omega)]
              rw [show i - 1 + 1 = i by omega]; exact hci
            rw [heapOf_getElem hnd' herased]
            have h2 : (cells.eraseIdx k)[i - 1 + 1]? = cells[i + 1]? := by
              rw [List.getElem?_eraseIdx, if_neg (by omega)]
              congr 1; omega
            have h3 : (cells.eraseIdx k)[i - 1 - 1]? = cells[i - 1]? := by
              rw [List.getElem?_eraseIdx, if_neg (by omega)]
              congr 1; omega
            rw [h2, if_neg (by omega : ¬ i - 1 = 0), h3,
              if_neg (by omega : ¬ i = 0)]
    · -- x is not an address of the chain at all
      rw [if_neg ?hc6, if_neg ?hc7]
      case hc6 =>
        intro hc
        by_cases hk0 : k = 0
        · rw [if_pos hk0] at hc; simp at hc
        · rw [if_neg hk0] at hc
          rcases Option.map_eq_some'.mp hc with ⟨c, hcc, hcf⟩
          have : c ∈ cells := by
            rcases List.getElem?_eq_some_iff.mp hcc with ⟨hl, hg⟩
            exact hg ▸ List.getElem_mem hl
          exact hmem (hcf ▸ List.mem_map_of_mem Prod.fst this)
      case hc7 =>
        intro hc
        rcases Option.map_eq_some'.mp hc with ⟨c, hcc, hcf⟩
        have : c ∈ cells := by
          rcases List.getElem?_eq_some_iff.mp hcc with ⟨hl, hg⟩
          exact hg ▸ List.getElem_mem hl
        exact hmem (hcf ▸ List.mem_map_of_mem Prod.fst this)
      rw [heapOf_not_mem hmem, heapOf_not_mem (fun hm => hmem ?_)]
      rw [← eraseIdx_map] at hm
      exact (List.eraseIdx_sublist _ k).subset hm

theorem firstMatchIdx_eq_none_iff {p : List Nat} {s : Nat} :
    ∀ {cells : List (Nat × list_data_t)},
    firstMatchIdx p s cells = none ↔
      ∀ c ∈ cells, memcmpEq c.2.payload p s = false := by
  intro cells
  induction cells with
  | nil => simp [firstMatchIdx]
  | cons c rest ih =>
    simp only [firstMatchIdx]
    by_cases hm : memcmpEq c.2.payload p s
    · simp [hm]
    · simp only [if_neg hm, Option.map_eq_none', List.forall_mem_cons, ih]
      simp [Bool.not_eq_true] at hm
      simp [hm]

/-- C3: on a chain holding at least one `memcmp`-matching payload, whose
first match sits at index `k`, `list_del` returns a heap that is exactly
the original chain with the `k`-th cell spliced out (survivors keep their
order, payloads and links; the freed address is unallocated), and the new
root is the old root unless the deleted node was the root, in which case
its former successor (new head of the remaining chain) is returned —
`none` when the list becomes empty. -/
theorem list_del_first_match_correct
    (cells : List (Nat × list_data_t)) (payload : List Nat) (size k : Nat)
    (hnd : (cells.map Prod.fst).Nodup)
    (hfm : firstMatchIdx payload size cells = some k) :
    ∃ h' root',
      list_del (heapOf cells) cells.length (headAddr cells) payload size =
        some (h', root') ∧
      (∀ x, h' x = heapOf (cells.eraseIdx k) x) ∧
      root' = if k = 0 then headAddr (cells.eraseIdx 0)
              else headAddr cells := by
  have hklen : k < cells.length := firstMatchIdx_lt_length hfm
  obtain ⟨⟨vk, dk⟩, hget⟩ : ∃ c, cells[k]? = some c :=
    ⟨_, List.getElem?_eq_getElem hklen⟩
  have hch := chain_heapOf hnd
  have hloop := @list_del_loop_found cells (heapOf cells) none
    (headAddr cells) payload size cells.length k vk dk
    hch (le_refl cells.length) hfm hget
  unfold list_del
  refine ⟨_, _, hloop, ?_, ?_⟩
  · intro x
    exact delUpdates_heapOf hnd hget x
  · by_cases hk0 : k = 0
    · subst hk0
      simp only [true_and, if_pos rfl]
      rw [headAddr_eq_getElem (cells.eraseIdx 0), List.getElem?_eraseIdx]
      simp
    · simp [hk0]

/-- C3 witness: deleting `[20]` from the two-cell chain `[10], [20]`
(addresses 0 and 1) removes the second cell. -/
theorem list_del_first_match_correct_witness :
    (([(0, ⟨1, [10]⟩), (1, ⟨1, [20]⟩)] :
        List (Nat × list_data_t)).map Prod.fst).Nodup ∧
    firstMatchIdx [20] 1 [(0, ⟨1, [10]⟩), (1, ⟨1, [20]⟩)] = some 1 ∧
    ∃ h' root',
      list_del (heapOf [(0, ⟨1, [10]⟩), (1, ⟨1, [20]⟩)]) 2
          (headAddr [(0, ⟨1, [10]⟩), (1, ⟨1, [20]⟩)]) [20] 1 =
        some (h', root') ∧
      (∀ x, h' x =
        heapOf (([(0, ⟨1, [10]⟩), (1, ⟨1, [20]⟩)] :
          List (Nat × list_data_t)).eraseIdx 1) x) ∧
      root' = if 1 = 0 then
          headAddr (([(0, ⟨1, [10]⟩), (1, ⟨1, [20]⟩)] :
            List (Nat × list_data_t)).eraseIdx 0)
        else headAddr [(0, ⟨1, [10]⟩), (1, ⟨1, [20]⟩)] :=
  ⟨by decide, by decide,
    list_del_first_match_correct [(0, ⟨1, [10]⟩), (1, ⟨1, [20]⟩)] [20] 1 1
      (by decide) (by decide)⟩

/-- C4: `list_del` on a chain aborts through `assert(0)` (modelled as the
`none` result) exactly when no node's payload `memcmp`-matches the given
buffer: it fails if and only if no node matches, after scanning the whole
list. -/
theorem list_del_miss_iff_no_match
    (cells : List (Nat × list_data_t)) (payload : List Nat) (size : Nat)
    (hnd : (cells.map Prod.fst).Nodup) :
    list_del (heapOf cells) cells.length (headAddr cells) payload size =
        none ↔
      ∀ c ∈ cells, memcmpEq c.2.payload payload size = false := by
  constructor
  · intro hres
    by_contra hnall
    have hne : firstMatchIdx payload size cells ≠ none := by
      intro h0
      exact hnall (firstMatchIdx_eq_none_iff.mp h0)
    rcases Option.ne_none_iff_exists'.mp hne with ⟨k, hk⟩
    have hklen : k < cells.length := firstMatchIdx_lt_length hk
    obtain ⟨⟨vk, dk⟩, hget⟩ : ∃ c, cells[k]? = some c :=
      ⟨_, List.getElem?_eq_getElem hklen⟩
    have := @list_del_loop_found cells (heapOf cells) none
      (headAddr cells) payload size cells.length k vk dk
      (chain_heapOf hnd) (le_refl cells.length) hk hget
    unfold list_del at hres
    rw [hres] at this
    exact Option.noConfusion this
  · intro hall
    exact list_del_loop_miss (chain_heapOf hnd) (le_refl cells.length)
      (firstMatchIdx_eq_none_iff.mpr hall)

/-- C4 witness: deleting `[99]` from the chain `[10], [20]` aborts, and
the abort condition coincides with the absence of any match. -/
theorem list_del_miss_iff_no_match_witness :
    (([(0, ⟨1, [10]⟩), (1, ⟨1, [20]⟩)] :
        List (Nat × list_data_t)).map Prod.fst).Nodup ∧
    (list_del (heapOf [(0, ⟨1, [10]⟩), (1, ⟨1, [20]⟩)]) 2
        (headAddr [(0, ⟨1, [10]⟩), (1, ⟨1, [20]⟩)]) [99] 1 = none ↔
      ∀ c ∈ ([(0, ⟨1, [10]⟩), (1, ⟨1, [20]⟩)] : List (Nat × list_data_t)),
        memcmpEq c.2.payload [99] 1 = false) :=
  ⟨by decide,
    list_del_miss_iff_no_match [(0, ⟨1, [10]⟩), (1, ⟨1, [20]⟩)] [99] 1
      (by decide)⟩

theorem headAddr_eq_none_iff {cells : List (Nat × list_data_t)} :
    headAddr cells = none ↔ cells = [] := by
  cases cells <;> simp [headAddr]

/-- C9: `list_get` returns the absent result exactly when the root is
absent or the position is at least `list_len` of the root; on a valid
position it returns the payload of the node reached by `pos` forward
hops. -/
theorem list_get_correct (cells : List (Nat × list_data_t)) (pos : Nat)
    (hnd : (cells.map Prod.fst).Nodup) :
    (list_get (heapOf cells) cells.length (headAddr cells) pos = none ↔
      headAddr cells = none ∨
        list_len_aux (heapOf cells) cells.length (headAddr cells) ≤ pos) ∧
    (pos < cells.length →
      list_get (heapOf cells) cells.length (headAddr cells) pos =
        cells[pos]?.map (fun c => c.2.payload)) := by
  have hch := chain_heapOf hnd
  have hlen := list_len_aux_chain hch (le_refl cells.length)
  have main : list_get (heapOf cells) cells.length (headAddr cells) pos =
      if headAddr cells = none ∨ cells.length ≤ pos then none
      else cells[pos]?.map (fun c => c.2.payload) := by
    unfold list_get
    rw [hlen]
    by_cases hg : headAddr cells = none ∨ cells.length ≤ pos
    · rw [if_pos (by exact hg), if_pos hg]
    · rw [if_neg (by exact hg), if_neg hg]
      push_neg at hg
      rw [walkNext_chain hch]
      obtain ⟨⟨a, d⟩, hpos⟩ : ∃ c, cells[pos]? = some c :=
        ⟨_, List.getElem?_eq_getElem hg.2⟩
      rw [hpos]
      simp only [Option.map_some']
      rw [heapOf_getElem hnd hpos]
  refine ⟨?_, ?_⟩
  · rw [main, hlen]
    by_cases hg : headAddr cells = none ∨ cells.length ≤ pos
    · simp [hg]
    · rw [if_neg hg]
      push_neg at hg
      obtain ⟨⟨a, d⟩, hpos⟩ : ∃ c, cells[pos]? = some c :=
        ⟨_, List.getElem?_eq_getElem hg.2⟩
      rw [hpos]
      simp only [Option.map_some']
      constructor
      · intro hc; exact Option.noConfusion hc
      · intro hc
        rcases hc with hc | hc
        · exact absurd hc hg.1
        · omega
  · intro hlt
    rw [main, if_neg]
    push_neg
    refine ⟨?_, by omega⟩
    intro he
    rw [headAddr_eq_none_iff] at he
    subst he
    simp at hlt

/-- C9 witness: on the two-cell chain `[10], [20]`, `list_get` at
position 1 returns `[20]` and is absent exactly out of range. -/
theorem list_get_correct_witness :
    (([(0, ⟨1, [10]⟩), (1, ⟨1, [20]⟩)] :
        List (Nat × list_data_t)).map Prod.fst).Nodup ∧
    (1 < ([(0, ⟨1, [10]⟩), (1, ⟨1, [20]⟩)] :
        List (Nat × list_data_t)).length) ∧
    ((list_get (heapOf [(0, ⟨1, [10]⟩), (1, ⟨1, [20]⟩)]) 2
        (headAddr [(0, ⟨1, [10]⟩), (1, ⟨1, [20]⟩)]) 1 = none ↔
      headAddr [(0, ⟨1, [10]⟩), (1, ⟨1, [20]⟩)] = none ∨
        list_len_aux (heapOf [(0, ⟨1, [10]⟩), (1, ⟨1, [20]⟩)]) 2
          (headAddr [(0, ⟨1, [10]⟩), (1, ⟨1, [20]⟩)]) ≤ 1) ∧
    (1 < ([(0, ⟨1, [10]⟩), (1, ⟨1, [20]⟩)] :
        List (Nat × list_data_t)).length →
      list_get (heapOf [(0, ⟨1, [10]⟩), (1, ⟨1, [20]⟩)]) 2
          (headAddr [(0, ⟨1, [10]⟩), (1, ⟨1, [20]⟩)]) 1 =
        (([(0, ⟨1, [10]⟩), (1, ⟨1, [20]⟩)] :
          List (Nat × list_data_t))[1]?).map (fun c => c.2.payload))) :=
  ⟨by decide, by decide,
    list_get_correct [(0, ⟨1, [10]⟩), (1, ⟨1, [20]⟩)] 1 (by decide)⟩

theorem list_search_chain {cells : List (Nat × list_data_t)} :
    ∀ {h : Heap} {prev : Option Nat} {payload : List Nat} {size fuel : Nat},
    Chain h prev cells → cells.length ≤ fuel →
    list_search h fuel (headAddr cells) payload size =
      (firstMatchIdx payload size cells).bind
        (fun k => cells[k]?.map Prod.fst) := by
  induction cells with
  | nil =>
    intro h prev payload size fuel _ _
    cases fuel <;> simp [headAddr, list_search, firstMatchIdx]
  | cons c rest ih =>
    intro h prev payload size fuel hch hfuel
    obtain ⟨a, d⟩ := c
    rw [chain_cons] at hch
    cases fuel with
    | zero => simp at hfuel
    | succ f =>
      have hhd : headAddr ((a, d) :: rest) = some a := by simp [headAddr]
      rw [hhd]
      simp only [list_search, hch.1]
      by_cases hm : memcmpEq d.payload payload size
      · simp [firstMatchIdx, hm]
      · rw [if_neg hm]
        rw [ih hch.2 (by simpa using hfuel)]
        simp only [firstMatchIdx, if_neg hm]
        rcases firstMatchIdx payload size rest with _ | k'
        · simp
        · simp

/-- C10: a node matches in `list_search` (and in `list_del`, via the same
`memcmp` test) exactly when the first `size` bytes of its stored payload
equal the supplied buffer — the stored size attribute plays no role; in
particular a search with size 0 returns the given reference itself on any
non-empty list, and `list_del` aborts exactly when no prefix-match
exists. -/
theorem list_search_memcmp_only
    (cells : List (Nat × list_data_t)) (payload : List Nat) (size : Nat)
    (hnd : (cells.map Prod.fst).Nodup) :
    (list_search (heapOf cells) cells.length (headAddr cells) payload
        size =
      (firstMatchIdx payload size cells).bind
        (fun k => cells[k]?.map Prod.fst)) ∧
    (cells ≠ [] →
      list_search (heapOf cells) cells.length (headAddr cells) payload 0 =
        headAddr cells) ∧
    (list_del (heapOf cells) cells.length (headAddr cells) payload size =
        none ↔ firstMatchIdx payload size cells = none) := by
  have hch := chain_heapOf hnd
  refine ⟨list_search_chain hch (le_refl _), ?_, ?_⟩
  · intro hne
    rw [list_search_chain hch (le_refl _)]
    rcases cells with _ | ⟨⟨a, d⟩, rest⟩
    · exact absurd rfl hne
    · simp [firstMatchIdx, memcmpEq, headAddr]
  · constructor
    · intro hres
      rcases hfm : firstMatchIdx payload size cells with _ | k
      · rfl
      · have hklen : k < cells.length := firstMatchIdx_lt_length hfm
        obtain ⟨⟨vk, dk⟩, hget⟩ : ∃ c, cells[k]? = some c :=
          ⟨_, List.getElem?_eq_getElem hklen⟩
        have := @list_del_loop_found cells (heapOf cells) none
          (headAddr cells) payload size cells.length k vk dk
          hch (le_refl cells.length) hfm hget
        unfold list_del at hres
        rw [hres] at this
        exact Option.noConfusion this
    · intro hfm
      exact list_del_loop_miss hch (le_refl cells.length) hfm

/-- C10 witness: with stored payloads `[1,2,3]` (stored size 3) and
`[1,2]`, a size-2 search for `[1,2]` matches the first node even though
its stored size differs, and a size-0 search returns the root. -/
theorem list_search_memcmp_only_witness :
    (([(0, ⟨3, [1, 2, 3]⟩), (1, ⟨2, [1, 2]⟩)] :
        List (Nat × list_data_t)).map Prod.fst).Nodup ∧
    ((list_search (heapOf [(0, ⟨3, [1, 2, 3]⟩), (1, ⟨2, [1, 2]⟩)]) 2
        (headAddr [(0, ⟨3, [1, 2, 3]⟩), (1, ⟨2, [1, 2]⟩)]) [1, 2] 2 =
      (firstMatchIdx [1, 2] 2
          [(0, ⟨3, [1, 2, 3]⟩), (1, ⟨2, [1, 2]⟩)]).bind
        (fun k => (([(0, ⟨3, [1, 2, 3]⟩), (1, ⟨2, [1, 2]⟩)] :
          List (Nat × list_data_t))[k]?).map Prod.fst)) ∧
    (([(0, ⟨3, [1, 2, 3]⟩), (1, ⟨2, [1, 2]⟩)] :
        List (Nat × list_data_t)) ≠ [] →
      list_search (heapOf [(0, ⟨3, [1, 2, 3]⟩), (1, ⟨2, [1, 2]⟩)]) 2
          (headAddr [(0, ⟨3, [1, 2, 3]⟩), (1, ⟨2, [1, 2]⟩)]) [1, 2] 0 =
        headAddr [(0, ⟨3, [1, 2, 3]⟩), (1, ⟨2, [1, 2]⟩)]) ∧
    (list_del (heapOf [(0, ⟨3, [1, 2, 3]⟩), (1, ⟨2, [1, 2]⟩)]) 2
        (headAddr [(0, ⟨3, [1, 2, 3]⟩), (1, ⟨2, [1, 2]⟩)]) [1, 2] 2 =
        none ↔
      firstMatchIdx [1, 2] 2 [(0, ⟨3, [1, 2, 3]⟩), (1, ⟨2, [1, 2]⟩)] =
        none)) :=
  ⟨by decide,
    list_search_memcmp_only [(0, ⟨3, [1, 2, 3]⟩), (1, ⟨2, [1, 2]⟩)]
      [1, 2] 2 (by decide)⟩

/-- C1: evaluation of the middle-insertion bug at a concrete input.
Inserting `[99]` at position 1 of the two-cell chain `[10], [20]` returns
the old root as the claim states, but the element at index 1 is still
`[20]`, the length is still 2 (the new node never enters the forward
chain), and the freshly allocated node's `next` points at the node
itself — the source's `ptr_pos->prev->next = ptr_node` executes after
`ptr_pos->prev = ptr_node` and therefore writes the new node, not the old
predecessor. -/
theorem list_insert_middle_bug_eval :
    (list_insert (heapOf [(0, ⟨1, [10]⟩), (1, ⟨1, [20]⟩)]) 2 (some 0)
        (some [99]) 1 1 2).2 = some 0 ∧
    list_get (list_insert (heapOf [(0, ⟨1, [10]⟩), (1, ⟨1, [20]⟩)]) 2
        (some 0) (some [99]) 1 1 2).1 2 (some 0) 1 = some [20] ∧
    list_len_aux (list_insert (heapOf [(0, ⟨1, [10]⟩), (1, ⟨1, [20]⟩)]) 2
        (some 0) (some [99]) 1 1 2).1 2 (some 0) = 2 ∧
    (list_insert (heapOf [(0, ⟨1, [10]⟩), (1, ⟨1, [20]⟩)]) 2 (some 0)
        (some [99]) 1 1 2).1 2 = some ⟨⟨1, [99]⟩, some 2, some 0⟩ := by
  decide

/-- C2: evaluation of the invariant violation at a concrete input.  After
inserting `[77]` at position 1 of the chain `[5], [6]` (new node at
address 7), the node at address 0 still has `next = 1`, but the node at
address 1 now has `prev = 7`: two adjacent nodes of the resulting list
violate `A.next = B ↔ B.prev = A`. -/
theorem list_insert_middle_invariant_violation_eval :
    (list_insert (heapOf [(0, ⟨1, [5]⟩), (1, ⟨1, [6]⟩)]) 2 (some 0)
        (some [77]) 1 1 7).1 0 = some ⟨⟨1, [5]⟩, some 1, none⟩ ∧
    (list_insert (heapOf [(0, ⟨1, [5]⟩), (1, ⟨1, [6]⟩)]) 2 (some 0)
        (some [77]) 1 1 7).1 1 = some ⟨⟨1, [6]⟩, none, some 7⟩ ∧
    some 7 ≠ some 0 := by
  decide

/-- C5 counterexample: `list_insert` does not validate the size.  A call
with a present (empty) payload and size 0 on a one-node list is not
rejected: it allocates a node (address 5) and returns it as the new
root. -/
theorem list_insert_zero_size_not_rejected :
    (list_insert (heapOf [(0, ⟨1, [7]⟩)]) 1 (some 0) (some []) 0 0 5).2 =
        some 5 ∧
    (list_insert (heapOf [(0, ⟨1, [7]⟩)]) 1 (some 0) (some []) 0 0 5).1 5 =
      some ⟨⟨0, []⟩, some 0, none⟩ := by
  decide

/-- C5 amended: `list_init` rejects an absent payload or a zero size
(returning the absent result with nothing allocated), and `list_insert`
rejects an absent payload, returning the absent result and leaving the
heap untouched — but `list_insert` performs no size validation. -/
theorem list_init_insert_null_rejected (p : List Nat) (s : Nat) (h : Heap)
    (fuel : Nat) (root : Option Nat) (size pos newAddr : Nat) :
    list_init none s = none ∧
    list_init (some p) 0 = none ∧
    list_insert h fuel root none size pos newAddr = (h, none) := by
  refine ⟨rfl, by simp [list_init], ?_⟩
  unfold list_insert
  rw [if_pos (Or.inr (Or.inl rfl))]

/-- C6: `list_insert` with an absent root, or a position strictly greater
than the list length, returns the absent result and the untouched heap;
in particular `list_len` on the original root is unchanged. -/
theorem list_insert_out_of_range_rejected (h : Heap) (fuel : Nat)
    (root : Option Nat) (payload : Option (List Nat))
    (size pos newAddr : Nat)
    (hrej : root = none ∨ pos > list_len_aux h fuel root) :
    list_insert h fuel root payload size pos newAddr = (h, none) ∧
    list_len_aux (list_insert h fuel root payload size pos newAddr).1 fuel
        root = list_len_aux h fuel root := by
  have hres : list_insert h fuel root payload size pos newAddr =
      (h, none) := by
    unfold list_insert
    rcases hrej with hr | hr
    · rw [if_pos (Or.inl hr)]
    · rw [if_pos (Or.inr (Or.inr hr))]
  exact ⟨hres, by rw [hres]⟩

/-- C6 witness: inserting at position 2 into a one-node list is rejected
and the list is untouched. -/
theorem list_insert_out_of_range_rejected_witness :
    ((some 0 : Option Nat) = none ∨
      2 > list_len_aux (heapOf [(0, ⟨1, [10]⟩)]) 1 (some 0)) ∧
    (list_insert (heapOf [(0, ⟨1, [10]⟩)]) 1 (some 0) (some [1]) 1 2 5 =
        (heapOf [(0, ⟨1, [10]⟩)], none) ∧
      list_len_aux (list_insert (heapOf [(0, ⟨1, [10]⟩)]) 1 (some 0)
          (some [1]) 1 2 5).1 1 (some 0) =
        list_len_aux (heapOf [(0, ⟨1, [10]⟩)]) 1 (some 0)) :=
  ⟨by decide,
    list_insert_out_of_range_rejected (heapOf [(0, ⟨1, [10]⟩)]) 1 (some 0)
      (some [1]) 1 2 5 (by decide)⟩

/-- C7: `list_init` on a present payload of positive length `L` yields a
single node holding a copy of the `L` payload bytes, stored size `L`, and
absent forward and back relations. -/
theorem list_init_single_node (p : List Nat) (L : Nat)
    (hL : 0 < L) (hlen : p.length = L) :
    list_init (some p) L = some ⟨⟨L, p⟩, none, none⟩ := by
  unfold list_init
  simp only [if_neg (show ¬ L = 0 by omega)]
  subst hlen
  rw [List.take_length]

/-- C7 witness: `list_init` on the one-byte payload `[3]`. -/
theorem list_init_single_node_witness :
    0 < 1 ∧ ([3] : List Nat).length = 1 ∧
    list_init (some [3]) 1 = some ⟨⟨1, [3]⟩, none, none⟩ :=
  ⟨by decide, by decide, list_init_single_node [3] 1 (by decide) (by decide)⟩

/-! Behaviour of `list_print`. -/

theorem length_writeAt {l w : List Nat} {i : Nat}
    (hfit : i + w.length ≤ l.length) : (writeAt l i w).length = l.length := by
  simp only [writeAt, List.length_append, List.length_take, List.length_drop]
  omega

theorem getElem?_writeAt_lt {l w : List Nat} {i j : Nat} (hj : j < i)
    (hi : i ≤ l.length) : (writeAt l i w)[j]? = l[j]? := by
  have ht : (l.take i).length = i := by simp; omega
  simp only [writeAt]
  rw [List.getElem?_append_left (by simp [ht]; omega),
    List.getElem?_append_left (by omega), List.getElem?_take_of_lt hj]

theorem getElem?_writeAt_inside {l w : List Nat} {i j : Nat} (hij : i ≤ j)
    (hjw : j < i + w.length) (hi : i ≤ l.length) :
    (writeAt l i w)[j]? = w[j - i]? := by
  have ht : (l.take i).length = i := by simp; omega
  simp only [writeAt]
  rw [List.getElem?_append_left (by simp [ht]; omega),
    List.getElem?_append_right (by omega), ht]

theorem getElem?_writeAt_ge {l w : List Nat} {i j : Nat}
    (hj : i + w.length ≤ j) (hi : i ≤ l.length) :
    (writeAt l i w)[j]? = l[j]? := by
  have ht : (l.take i).length = i := by simp; omega
  simp only [writeAt]
  rw [List.getElem?_append_right (by simp [ht]; omega),
    List.getElem?_drop]
  congr 1
  simp only [List.length_append, ht]
  omega

/-- Invariant of the `list_print` buffer: the buffer fills its capacity,
the capacity is at least the initial 16, there are at least
`REALLOC_THRESHOLD` bytes of headroom, and every byte from the cursor up
to (but excluding) the last 7 bytes of the buffer is zero. -/
def PrintInv (st : PrintState) : Prop :=
  st.buff.length = st.cap ∧ 16 ≤ st.cap ∧ st.cursor + 8 ≤ st.cap ∧
  ∀ i, st.cursor ≤ i → i + 7 < st.cap → st.buff[i]? = some 0

theorem print_step_inv {junk : Nat → Nat} {st : PrintState} {w : List Nat}
    (hw : w.length ≤ 8) (hinv : PrintInv st) :
    PrintInv (print_step junk st w) := by
  obtain ⟨hlen, hcap, hcur, hz⟩ := hinv
  have hfit : st.cursor + w.length ≤ st.buff.length := by omega
  unfold print_step
  by_cases hgrow : st.cursor + w.length > st.cap - REALLOC_THRESHOLD
  · rw [if_pos hgrow]
    unfold REALLOC_THRESHOLD at hgrow
    have hlen1 : (writeAt st.buff st.cursor w).length = st.cap := by
      rw [length_writeAt hfit]; exact hlen
    have hlen2 : (writeAt st.buff st.cursor w ++
        (List.range st.cap).map (fun i => junk (st.cap + i))).length =
          st.cap * 2 := by
      simp [hlen1]; omega
    show PrintInv ⟨writeAt (writeAt st.buff st.cursor w ++
        (List.range st.cap).map (fun i => junk (st.cap + i)))
        (st.cursor + w.length) (List.replicate st.cap 0),
      st.cap * 2, st.cursor + w.length⟩
    refine ⟨?_, ?_, ?_, ?_⟩
    · show (writeAt _ _ _).length = st.cap * 2
      rw [length_writeAt (by rw [hlen2, List.length_replicate]; omega)]
      exact hlen2
    · show 16 ≤ st.cap * 2
      omega
    · show st.cursor + w.length + 8 ≤ st.cap * 2
      omega
    · intro i hci hi7
      dsimp only at hci hi7 ⊢
      rw [getElem?_writeAt_inside hci
        (by rw [List.length_replicate]; omega) (by rw [hlen2]; omega)]
      rw [List.getElem?_replicate_of_lt (by omega)]
  · rw [if_neg hgrow]
    unfold REALLOC_THRESHOLD at hgrow
    show PrintInv ⟨writeAt st.buff st.cursor w, st.cap,
      st.cursor + w.length⟩
    refine ⟨?_, ?_, ?_, ?_⟩
    · show (writeAt _ _ _).length = st.cap
      rw [length_writeAt hfit]; exact hlen
    · show 16 ≤ st.cap
      omega
    · show st.cursor + w.length + 8 ≤ st.cap
      omega
    · intro i hci hi7
      dsimp only at hci hi7 ⊢
      rw [getElem?_writeAt_ge (by omega) (by omega)]
      exact hz i (by omega) (by omega)

theorem list_print_loop_inv {cells : List (Nat × list_data_t)} :
    ∀ {h : Heap} {prev : Option Nat}
      {cb : List Nat → Option (List Nat)} {junk : Nat → Nat}
      {fuel : Nat} {st st' : PrintState},
    Chain h prev cells → cells.length ≤ fuel →
    (∀ pl w, cb pl = some w → w.length ≤ 8) →
    PrintInv st →
    list_print_loop h cb junk fuel (headAddr cells) st = some st' →
    PrintInv st' := by
  induction cells with
  | nil =>
    intro h prev cb junk fuel st st' _ _ _ hinv hrun
    have : headAddr ([] : List (Nat × list_data_t)) = none := rfl
    rw [this] at hrun
    cases fuel <;>
      (simp only [list_print_loop, Option.some.injEq] at hrun;
       exact hrun ▸ hinv)
  | cons c rest ih =>
    intro h prev cb junk fuel st st' hch hfuel hwb hinv hrun
    obtain ⟨a, d⟩ := c
    rw [chain_cons] at hch
    cases fuel with
    | zero => simp at hfuel
    | succ f =>
      have hhd : headAddr ((a, d) :: rest) = some a := by simp [headAddr]
      rw [hhd] at hrun
      simp only [list_print_loop, hch.1] at hrun
      rcases hcb : cb d.payload with _ | w
      · rw [hcb] at hrun; exact Option.noConfusion hrun
      · rw [hcb] at hrun
        exact ih hch.2 (by simpa using hfuel) hwb
          (print_step_inv (hwb _ _ hcb) hinv) hrun

/-- C8 counterexample: the buffer is not always zero beyond the cursor.
With two nodes and a callback writing 5 bytes per node (well within the
threshold), the second write triggers the doubling; `realloc` exposes 16
unspecified bytes (here all 1) and the source's
`memset(buff + buff_ptr, 0, curr_buff_size)` zeroes only positions
10..25 of the new 32-byte buffer, so at return the byte at index 26 —
beyond the cursor 10 — equals 1, not 0. -/
theorem list_print_junk_byte_beyond_cursor :
    (list_print (heapOf [(0, ⟨1, [42]⟩), (1, ⟨1, [43]⟩)]) 2
        (headAddr [(0, ⟨1, [42]⟩), (1, ⟨1, [43]⟩)])
        (some (fun _ => some [7, 7, 7, 7, 7])) (fun _ => 1)).map
      (fun st => (st.cursor, st.cap, st.buff[26]?)) =
      some (10, 32, some 1) ∧ 10 ≤ 26 ∧ (1 : Nat) ≠ 0 := by
  decide

/-- C8 amended: for callbacks writing at most `REALLOC_THRESHOLD` bytes
per invocation, the buffer returned by `list_print` fills its capacity,
the capacity starts at 16 and is doubled whenever the headroom drops
below the threshold 8 (so at return the headroom is at least 8), and
every byte from the cursor up to — but excluding — the last 7 bytes of
the buffer is zero; the final 7 bytes may hold uninitialized growth
bytes, because the post-`realloc` `memset` starts at the cursor instead
of at the old capacity. -/
theorem list_print_zero_beyond_cursor_except_tail
    (cells : List (Nat × list_data_t)) (cb : List Nat → Option (List Nat))
    (junk : Nat → Nat) (st' : PrintState)
    (hnd : (cells.map Prod.fst).Nodup)
    (hwb : ∀ pl w, cb pl = some w → w.length ≤ REALLOC_THRESHOLD)
    (hrun : list_print (heapOf cells) cells.length (headAddr cells)
        (some cb) junk = some st') :
    st'.buff.length = st'.cap ∧ 16 ≤ st'.cap ∧
    st'.cursor + REALLOC_THRESHOLD ≤ st'.cap ∧
    ∀ i, st'.cursor ≤ i → i + 7 < st'.cap → st'.buff[i]? = some 0 := by
  have hinv0 : PrintInv ⟨List.replicate LIST_PRINT_BUFF_SIZE 0,
      LIST_PRINT_BUFF_SIZE, 0⟩ := by
    refine ⟨?_, ?_, ?_, ?_⟩
    · show (List.replicate LIST_PRINT_BUFF_SIZE 0).length =
        LIST_PRINT_BUFF_SIZE
      simp
    · show 16 ≤ LIST_PRINT_BUFF_SIZE
      decide
    · show 0 + 8 ≤ LIST_PRINT_BUFF_SIZE
      decide
    · intro i _ hi
      dsimp only at hi ⊢
      rw [List.getElem?_replicate_of_lt
        (by unfold LIST_PRINT_BUFF_SIZE at hi ⊢; omega)]
  unfold list_print at hrun
  exact list_print_loop_inv (chain_heapOf hnd) (le_refl _) hwb hinv0 hrun

/-- C8 witness: a one-node run whose callback writes two bytes. -/
theorem list_print_zero_beyond_cursor_except_tail_witness :
    (([(0, ⟨1, [42]⟩)] : List (Nat × list_data_t)).map Prod.fst).Nodup ∧
    (∀ pl w, (fun _ : List Nat => some [9, 9]) pl = some w →
      w.length ≤ REALLOC_THRESHOLD) ∧
    (list_print (heapOf [(0, ⟨1, [42]⟩)]) 1 (headAddr [(0, ⟨1, [42]⟩)])
        (some (fun _ => some [9, 9])) (fun _ => 3) =
      some ⟨[9, 9] ++ List.replicate 14 0, 16, 2⟩) ∧
    ((⟨[9, 9] ++ List.replicate 14 0, 16, 2⟩ : PrintState).buff.length =
        (⟨[9, 9] ++ List.replicate 14 0, 16, 2⟩ : PrintState).cap ∧
      16 ≤ (⟨[9, 9] ++ List.replicate 14 0, 16, 2⟩ : PrintState).cap ∧
      (⟨[9, 9] ++ List.replicate 14 0, 16, 2⟩ : PrintState).cursor +
          REALLOC_THRESHOLD ≤
        (⟨[9, 9] ++ List.replicate 14 0, 16, 2⟩ : PrintState).cap ∧
      ∀ i, (⟨[9, 9] ++ List.replicate 14 0, 16, 2⟩ : PrintState).cursor ≤
          i →
        i + 7 < (⟨[9, 9] ++ List.replicate 14 0, 16, 2⟩ : PrintState).cap →
        (⟨[9, 9] ++ List.replicate 14 0, 16, 2⟩ :
          PrintState).buff[i]? = some 0) :=
  ⟨by decide,
   by intro pl w h; injection h with h2; rw [← h2]; decide,
   by decide,
   list_print_zero_beyond_cursor_except_tail [(0, ⟨1, [42]⟩)]
     (fun _ => some [9, 9]) (fun _ => 3)
     ⟨[9, 9] ++ List.replicate 14 0, 16, 2⟩ (by decide)
     (by intro pl w h; injection h with h2; rw [← h2]; decide)
     (by decide)⟩

end Libads
